import Mathlib

/-!
Verification of the `findup` duplicate-file finder (src/main.rs).

Shallow embedding of the core pipeline of `src/main.rs`:

* `Walker` (iterative directory traversal, `impl Iterator for Walker`),
* `group_by_len` (first pass: bucket files by byte length),
* `same_size_to_checksums` (second pass: refine multi-member buckets by
  content hash),
* `Duplicates::summarize` and the presentation order of `print_result`,
* `mode1` (the single-directory pipeline).

Modelling conventions:

* `PathBuf` is a list of name components; component names are drawn from an
  abstract totally ordered alphabet, modelled as `Nat`.  `Path::cmp` compares
  component-wise lexicographically, which is the lexicographic order on the
  component lists.
* `u64` quantities (file sizes, summary counters) are modelled as `Nat`.
  The one place truncation could differ from `u64` semantics is the
  subtraction `files - 1` / `files - candidates`; the relevant theorems carry
  or establish the non-emptiness facts under which both agree.
* Rust `HashMap`s are modelled as association lists with the
  `entry(..).or_insert_with(..)` update discipline; their iteration order is
  arbitrary, so any property sensitive to it is stated up to permutation.
* The SHA-256 hash of the `sha2` crate and the `fs::read` system call are
  external to the repository; they enter as parameters `hashF` and `readF`.
* Panics (`unwrap()` on metadata, `unreachable!()`, out-of-bounds indexing)
  are modelled by `Option`/dedicated result constructors, `none` (or
  `.panicked`) meaning the process aborts.
-/

namespace Findup

/-- A file-system path: the list of name components of a `PathBuf`.
Component names are an abstract ordered alphabet, modelled as `Nat`. -/
abbrev Path := List Nat

/-- Raw file content (the byte vector returned by `fs::read`). -/
abbrev Content := List Nat

/-- A 256-bit content digest (`[u8; 32]`), kept abstract as a byte list. -/
abbrev Hash := List Nat

/-- Rust's `enum Entry { File { path, len }, Error { path, err } }`.  The `io::Error`
payload is irrelevant to every pipeline stage (it is never inspected), so it
is dropped. -/
inductive Entry where
  | file (path : Path) (len : Nat)
  | error (path : Path)
deriving DecidableEq, Repr

/-- The `Entry::File { .. }` discriminator. -/
def Entry.isFile : Entry → Bool
  | .file _ _ => true
  | .error _ => false

/-- Rust's `type ChecksumMap = HashMap<[u8; 32], Vec<PathBuf>>`, as an association
list. -/
abbrev ChecksumMap := List (Hash × List Path)

/-- Rust's `enum Same { SameSize(Vec<PathBuf>), Checksums(ChecksumMap) }`. -/
inductive Same where
  | sameSize (paths : List Path)
  | checksums (map : ChecksumMap)
deriving DecidableEq, Repr

/-- Rust's `struct Duplicates(HashMap<u64, Same>)`, as an association list. -/
abbrev Duplicates := List (Nat × Same)

/-! ## Generic association-map machinery

`HashMap::entry(k).or_insert_with(Vec::new)` followed by `push(p)` on a map
whose values are vectors, written once for both key types (`u64` sizes and
`[u8; 32]` hashes). -/

/-- Append `p` to the vector at key `k`, creating a one-element vector if the
key is absent (absent keys are placed at the end of the association list; the
list order stands in for the arbitrary `HashMap` iteration order). -/
def upsertAppend {κ : Type} [DecidableEq κ] :
    List (κ × List Path) → κ → Path → List (κ × List Path)
  | [], k, p => [(k, [p])]
  | (k', v) :: rest, k, p =>
    if k = k' then (k', v ++ [p]) :: rest else (k', v) :: upsertAppend rest k p

/-- Association-list lookup. -/
def lookupKey {κ : Type} [DecidableEq κ] (k : κ) :
    List (κ × List Path) → Option (List Path)
  | [] => none
  | (k', v) :: rest => if k = k' then some v else lookupKey k rest

/-- Build a vector-valued map from a list of key/path pairs by repeated
`upsertAppend`. -/
def buildMap {κ : Type} [DecidableEq κ] (pairs : List (κ × Path)) :
    List (κ × List Path) :=
  pairs.foldl (fun m kp => upsertAppend m kp.1 kp.2) []

/-- The paths among `pairs` carrying key `k`, in order. -/
def sel {κ : Type} [DecidableEq κ] (k : κ) (pairs : List (κ × Path)) :
    List Path :=
  pairs.filterMap (fun kp => if kp.1 = k then some kp.2 else none)

/-! ## Pass 1: `group_by_len` -/

/-- The `map.0.entry(len).or_insert_with(|| Same::SameSize(Vec::new()))`
update of `group_by_len`, followed by `bucket.push(path)`.  The
`Same::Checksums` case hits `unreachable!()` in the source; it is modelled by
`none` (process abort). -/
def bucketPush : Duplicates → Nat → Path → Option Duplicates
  | [], len, path => some [(len, .sameSize [path])]
  | (k, v) :: rest, len, path =>
    if len = k then
      match v with
      | .sameSize ps => some ((k, .sameSize (ps ++ [path])) :: rest)
      | .checksums _ => none
    else (bucketPush rest len path).map ((k, v) :: ·)

/-- Source `fn group_by_len(mut map: Duplicates, entry: Entry) -> Duplicates`.
`Entry::Error` entries are dropped (`_ => map`); the `unreachable!()` branch
surfaces as `none`. -/
def group_by_len (map : Duplicates) (e : Entry) : Option Duplicates :=
  match e with
  | .file path len => bucketPush map len path
  | .error _ => some map

/-- The `(len, path)` pairs of the `Entry::File` entries of a sequence, in
order (`Entry::Error` carries no length and is dropped by `group_by_len`). -/
def filePairs (es : List Entry) : List (Nat × Path) :=
  es.filterMap (fun e =>
    match e with
    | .file p l => some (l, p)
    | .error _ => none)

/-- Pure description of the pass-1 result: the size map built from the file
entries in discovery order. -/
def sizeGroups (es : List Entry) : List (Nat × List Path) :=
  buildMap (filePairs es)

/-- Wrap raw size buckets in the `Same::SameSize` constructor. -/
def wrapSS (m : List (Nat × List Path)) : Duplicates :=
  m.map (fun kv => (kv.1, Same.sameSize kv.2))

/-! ## Pass 2: `same_size_to_checksums` -/

/-- Source `fn same_size_to_checksums((size, same): (u64, Same)) -> (u64, Same)`.
`fs::read` is the parameter `readF` (`none` = `Err(_)`), the SHA-256 digest
of the `sha2` crate is the parameter `hashF`.  A path whose read fails is
skipped (`if let Ok(content) = fs::read(path)`). -/
def same_size_to_checksums (readF : Path → Option Content)
    (hashF : Content → Hash) : Nat × Same → Nat × Same
  | (size, .sameSize paths) =>
    if paths.length > 1 then
      (size, .checksums (paths.foldl (fun m path =>
        match readF path with
        | some content => upsertAppend m (hashF content) path
        | none => m) []))
    else (size, .sameSize paths)
  | (size, s) => (size, s)

/-- The `(hash, path)` pairs actually inserted by the checksum loop: readable
paths tagged with the hash of their content, in order. -/
def readPairs (readF : Path → Option Content) (hashF : Content → Hash)
    (paths : List Path) : List (Hash × Path) :=
  paths.filterMap (fun p => (readF p).map (fun c => (hashF c, p)))

/-! ## `Summary` and `Duplicates::summarize` -/

/-- Rust's `struct Summary { files: u64, candidates: u64, bytes: u64 }` (counters as
`Nat`). -/
structure Summary where
  files : Nat
  candidates : Nat
  bytes : Nat
deriving DecidableEq, Repr

/-- The loop body shared by both arms of `summarize`: account one group of
`paths.len()` members at size key `size`.  `files - 1` is `u64` subtraction;
on the (never reached, see `C10`) empty group it is modelled by truncated
`Nat` subtraction. -/
def accountGroup (size : Nat) (s : Summary) (paths : List Path) : Summary :=
  { files := s.files + paths.length
    candidates := s.candidates + (paths.length - 1)
    bytes := s.bytes + size * (paths.length - 1) }

/-- Source `impl Duplicates { fn summarize(&self) -> Summary }`: fold over the map,
`Same::Checksums` groups contribute one term per hash bucket. -/
def summarize (d : Duplicates) : Summary :=
  d.foldl (fun s kv =>
    match kv with
    | (size, .sameSize paths) => accountGroup size s paths
    | (size, .checksums map) =>
      map.foldl (fun s hv => accountGroup size s hv.2) s) ⟨0, 0, 0⟩

/-! ## Presentation: `as_path_iterator` and `print_result` -/

/-- Source `fn as_path_iterator(item: &Same) -> impl Iterator<Item = &Vec<PathBuf>>`:
a `SameSize` bucket is one member-list, a `Checksums` map contributes its
values. -/
def as_path_iterator (item : Same) : List (List Path) :=
  match item with
  | .checksums cs => cs.map Prod.snd
  | .sameSize s => [s]

/-- The flattened list `x` of `print_result` before sorting:
`result.0.values().flat_map(as_path_iterator).collect()`. -/
def allGroupLists (d : Duplicates) : List (List Path) :=
  (d.map Prod.snd).flatMap as_path_iterator

/-- Component-wise lexicographic path comparison, `a <= b`, mirroring
`PathBuf::cmp`. -/
def pathLe : Path → Path → Bool
  | [], _ => true
  | _ :: _, [] => false
  | x :: xs, y :: ys =>
    if x < y then true else if y < x then false else pathLe xs ys

/-- The comparator of `print_result`'s sort:
`(**a)[0].cmp(&(**b)[0])`, i.e. compare the *first* path of each member-list
(`headD []` stands for the index-0 access, which every reachable member-list
satisfies, see `C10`). -/
def headLe (a b : List Path) : Prop :=
  pathLe (a.headD []) (b.headD []) = true

instance : DecidableRel headLe := fun a b => by
  unfold headLe; infer_instance

/-- The sort `x.sort_by(|a, b| (**a)[0].cmp(&(**b)[0]))` applied to the flattened
group list.  Rust's `sort_by` is a stable sort with respect to the
comparator; it is modelled by the (stable) insertion sort. -/
def print_order (d : Duplicates) : List (List Path) :=
  (allGroupLists d).insertionSort headLe

/-- Rust's `enum Output { Human, Machine }`. -/
inductive Output where
  | human
  | machine
deriving DecidableEq, Repr

/-- Rust's `struct Args`, the clap-derived CLI record (the `directories` positional
argument is consumed by `main`, not by the core, and is omitted). -/
structure Args where
  output : Output
  human : Bool
  machine : Bool
  max_depth : Nat
deriving DecidableEq, Repr

/-- One iteration of the printing loop of `print_result` for the member-list
`candidates`, as (indented?, path) pairs.  Human mode indexes `candidates[0]`
unconditionally, which panics (`none`) on an empty list; machine mode guards
with `candidates.len() > 1`. -/
def group_lines (args : Args) (candidates : List Path) :
    Option (List (Bool × Path)) :=
  match args.output with
  | .human =>
    match candidates with
    | [] => none
    | c0 :: rest => some ((false, c0) :: rest.map (fun p => (true, p)))
  | .machine =>
    if candidates.length > 1 then
      some ((candidates.drop 1).map (fun p => (false, p)))
    else some []

/-- The printing loop `for candidates in x { .. }`, `none` if any iteration
panics. -/
def linesFor (args : Args) : List (List Path) → Option (List (Bool × Path))
  | [] => some []
  | g :: rest =>
    match group_lines args g, linesFor args rest with
    | some ls, some more => some (ls ++ more)
    | _, _ => none

/-- All lines printed by the group loop of `print_result`, `none` if any
iteration panics. -/
def print_lines (args : Args) (d : Duplicates) :
    Option (List (Bool × Path)) :=
  linesFor args (print_order d)

/-! ## The `Walker`

The file-system tree seen through the system calls the walker makes.  A
directory listing is a list of raw read results: `RawEntry.err` is a cursor
step that returns `Err(_)` (unreadable directory entry), `RawEntry.ok` is an
entry with its name, its `metadata()` result (`none` = `Err`, unwrapped by
the walker!), its `file_type()` result (`none` = `Err`) and, for
directories, the `read_dir` result for descending (`none` = `Err`). -/

/-- Classification of a directory entry, `fs::FileType`. -/
inductive FileType where
  | dir
  | file
  | other
deriving DecidableEq, Repr

/-- One raw result of a `ReadDir` cursor step. -/
inductive RawEntry where
  | err
  | ok (name : Nat) (meta : Option Nat) (ftype : Option FileType)
      (sub : Option (List RawEntry))
deriving Repr

/-- A stack frame of the walker: the directory's path together with the
remaining (unconsumed) part of its `ReadDir` cursor.  `Walker.iterator_stack`
is the list of frames, most recently opened first. -/
abbrev DirFrame := Path × List RawEntry

/-- Number of raw entries in a listing, subdirectory listings included
(the measure for the walker recursion). -/
def entryListSize : List RawEntry → Nat
  | [] => 0
  | .err :: es => 1 + entryListSize es
  | .ok _ _ _ none :: es => 1 + entryListSize es
  | .ok _ _ _ (some sub) :: es => 1 + entryListSize sub + entryListSize es
termination_by l => sizeOf l
decreasing_by all_goals (simp <;> omega)

/-- Measure for the walker recursion: each frame weighs one plus twice the
raw-entry count of its cursor, so popping an exhausted cursor, descending
into a subdirectory and skipping an entry all strictly decrease it. -/
def stackSize (st : List DirFrame) : Nat :=
  (st.map (fun f => 2 * entryListSize f.2 + 1)).sum

/-- The outcome of one `Walker::next` call: end of iteration (`None`), a
yielded item (`Some(entry)`, with the updated stack), or a process abort from
`entry.metadata().unwrap()`. -/
inductive Step where
  | panic
  | done
  | yield (e : Entry) (st : List DirFrame)
deriving Repr

/-- Source `impl Iterator for Walker { fn next(&mut self) -> Option<Entry> }`.
The source function calls itself (`self.next()`) after popping an exhausted
cursor, after descending into a directory, and after skipping a non-regular
entry; those are the three recursive cases below. -/
def walkNext : List DirFrame → Step
  | [] => .done
  | (_, []) :: rest => walkNext rest
  | (d, .err :: es) :: rest => .yield (.error []) ((d, es) :: rest)
  | (d, .ok name meta ftype sub :: es) :: rest =>
    match meta with
    | none => .panic
    | some len =>
      match ftype with
      | none => .yield (.error (d ++ [name])) ((d, es) :: rest)
      | some .dir =>
        match sub with
        | some neu => walkNext ((d ++ [name], neu) :: (d, es) :: rest)
        | none => .yield (.error (d ++ [name])) ((d, es) :: rest)
      | some .file => .yield (.file (d ++ [name]) len) ((d, es) :: rest)
      | some .other => walkNext ((d, es) :: rest)
termination_by st => stackSize st
decreasing_by all_goals first
  | (simp [stackSize, entryListSize] <;> omega)
  | (cases sub <;> simp [stackSize, entryListSize] <;> omega)

/-- Number of nested `self.next()` activations (the top-level call included)
that `Walker::next` performs before returning its next item: 1 for each
non-recursive arm, 1 + the count of the continuation for the pop / descend /
skip arms. -/
def nextCalls : List DirFrame → Nat
  | [] => 1
  | (_, []) :: rest => 1 + nextCalls rest
  | (_, .err :: _) :: _ => 1
  | (d, .ok name meta ftype sub :: es) :: rest =>
    match meta with
    | none => 1
    | some _ =>
      match ftype with
      | none => 1
      | some .dir =>
        match sub with
        | some neu => 1 + nextCalls ((d ++ [name], neu) :: (d, es) :: rest)
        | none => 1
      | some .file => 1
      | some .other => 1 + nextCalls ((d, es) :: rest)
termination_by st => stackSize st
decreasing_by all_goals first
  | (simp [stackSize, entryListSize] <;> omega)
  | (cases sub <;> simp [stackSize, entryListSize] <;> omega)

/-- The full entry sequence produced by consuming the walker (the iteration
performed by `walker.fold(..)` in `mode1`); `none` if some `next()` call
aborts the process.  Same recursion structure as `walkNext`, accumulating the
yielded entries; `walkAll_eq_walkNext` below checks it is exactly the
iteration of `walkNext`. -/
def walkAll : List DirFrame → Option (List Entry)
  | [] => some []
  | (_, []) :: rest => walkAll rest
  | (d, .err :: es) :: rest => (walkAll ((d, es) :: rest)).map (Entry.error [] :: ·)
  | (d, .ok name meta ftype sub :: es) :: rest =>
    match meta with
    | none => none
    | some len =>
      match ftype with
      | none => (walkAll ((d, es) :: rest)).map (Entry.error (d ++ [name]) :: ·)
      | some .dir =>
        match sub with
        | some neu => walkAll ((d ++ [name], neu) :: (d, es) :: rest)
        | none => (walkAll ((d, es) :: rest)).map (Entry.error (d ++ [name]) :: ·)
      | some .file =>
        (walkAll ((d, es) :: rest)).map (Entry.file (d ++ [name]) len :: ·)
      | some .other => walkAll ((d, es) :: rest)
termination_by st => stackSize st
decreasing_by all_goals first
  | (simp [stackSize, entryListSize] <;> omega)
  | (cases sub <;> simp [stackSize, entryListSize] <;> omega)

/-- The outcome of `mode1`: the root `read_dir` error (`Err` returned to
`main`), a process abort, or normal completion with the final model, its
summary, and the printed group lines. -/
inductive RunResult where
  | rootError
  | panicked
  | ok (model : Duplicates) (summary : Summary) (lines : List (Bool × Path))
deriving Repr

/-- Source `fn mode1<P>(args: &Args, path: P) -> Result<(), std::io::Error>`.
The root directory listing is `root` (`none` = `fs::read_dir` fails in
`Walker::new`, propagated by `?`).  Pass 1 folds the walker entries through
`group_by_len`, pass 2 maps `same_size_to_checksums` over the map, then
`print_result` prints the groups and the summary. -/
def mode1 (args : Args) (readF : Path → Option Content)
    (hashF : Content → Hash) (root : Option (List RawEntry)) : RunResult :=
  match root with
  | none => .rootError
  | some entries =>
    match walkAll [([], entries)] with
    | none => .panicked
    | some es =>
      match es.foldlM group_by_len [] with
      | none => .panicked
      | some pass1 =>
        let pass2 := pass1.map (same_size_to_checksums readF hashF)
        match print_lines args pass2 with
        | none => .panicked
        | some lines => .ok pass2 (summarize pass2) lines

/-- A directory listing in which every entry's `metadata()` call succeeds
(recursively), so the `unwrap()` in `Walker::next` cannot abort. -/
def goodMeta : List RawEntry → Bool
  | [] => true
  | .err :: es => goodMeta es
  | .ok _ none _ _ :: _ => false
  | .ok _ (some _) _ none :: es => goodMeta es
  | .ok _ (some _) _ (some sub) :: es => goodMeta sub && goodMeta es
termination_by l => sizeOf l
decreasing_by all_goals (simp <;> omega)

/-- A chain of `n` nested directories with a single one-byte file at the
bottom: the deep-tree family used to measure the walker's recursion. -/
def chainFs : Nat → List RawEntry
  | 0 => [.ok 0 (some 1) (some .file) none]
  | n + 1 => [.ok 0 (some 0) (some .dir) (some (chainFs n))]

/-! ## Specification-side definitions -/

/-- Flatten a result model to its groups, each tagged with its size key
(`Same::Checksums` maps contribute one group per hash bucket). -/
def allGroups (d : Duplicates) : List (Nat × List Path) :=
  d.flatMap (fun kv => (as_path_iterator kv.2).map (fun g => (kv.1, g)))

/-- The checksum map the refinement loop of `same_size_to_checksums` builds
for a bucket `paths` (readable paths, bucketed by content hash). -/
def checksumMap (readF : Path → Option Content) (hashF : Content → Hash)
    (paths : List Path) : ChecksumMap :=
  buildMap (readPairs readF hashF paths)

/-- Two paths lie in a common member-list of the final model. -/
def inSameGroup (d : Duplicates) (p q : Path) : Prop :=
  ∃ kv ∈ d, ∃ g ∈ as_path_iterator kv.2, p ∈ g ∧ q ∈ g

instance (d : Duplicates) (p q : Path) : Decidable (inSameGroup d p q) := by
  unfold inSameGroup; infer_instance

/-- Modelled from the spec: "the lexicographically smallest path within each
list" --- the minimum (under `pathLe`) of a member-list. -/
def minPathOf (g : List Path) : Path :=
  g.foldl (fun acc p => if pathLe p acc = true then p else acc) (g.headD [])

/-- Modelled from the spec: comparator ordering member-lists "by the
lexicographically smallest path within each list". -/
def minLe (a b : List Path) : Prop :=
  pathLe (minPathOf a) (minPathOf b) = true

instance : DecidableRel minLe := fun a b => by
  unfold minLe; infer_instance

/-- Modelled from the spec: the presentation order the specification
prescribes --- the flattened group list sorted by smallest contained path. -/
def spec_print_order (d : Duplicates) : List (List Path) :=
  (allGroupLists d).insertionSort minLe

/-! ## Lemmas: the walker -/

/-- Yielding an item consumes at least one raw entry: the updated stack is
strictly smaller in the walker measure. -/
theorem walkNext_yield_size {e : Entry} {st' : List DirFrame} :
    ∀ st, walkNext st = .yield e st' → stackSize st' < stackSize st := by
  intro st
  induction st using walkNext.induct with
  | case1 => intro h; simp [walkNext] at h
  | case2 fst rest ih =>
    intro h
    simp only [walkNext] at h
    have := ih h
    simp [stackSize, entryListSize] at this ⊢
    omega
  | case3 d es rest =>
    intro h
    simp only [walkNext] at h
    obtain ⟨-, rfl⟩ := Step.yield.inj h
    simp [stackSize, entryListSize] <;> omega
  | case4 d name ftype sub es rest => intro h; simp [walkNext] at h
  | case5 d name sub es rest len =>
    intro h
    simp only [walkNext] at h
    obtain ⟨-, rfl⟩ := Step.yield.inj h
    cases sub <;> simp [stackSize, entryListSize] <;> omega
  | case6 d name es rest len neu ih =>
    intro h
    simp only [walkNext] at h
    have := ih h
    simp [stackSize, entryListSize] at this ⊢
    omega
  | case7 d name es rest len =>
    intro h
    simp only [walkNext] at h
    obtain ⟨-, rfl⟩ := Step.yield.inj h
    simp [stackSize, entryListSize] <;> omega
  | case8 d name sub es rest len =>
    intro h
    simp only [walkNext] at h
    obtain ⟨-, rfl⟩ := Step.yield.inj h
    cases sub <;> simp [stackSize, entryListSize] <;> omega
  | case9 d name sub es rest len ih =>
    intro h
    simp only [walkNext] at h
    have := ih h
    cases sub <;> simp [stackSize, entryListSize] at this ⊢ <;> omega

/-- The function `walkAll` is the iteration of `walkNext`: `mode1`'s
`walker.fold(Duplicates::new(), group_by_len)` consumes precisely the items
that repeated `next()` calls yield, aborting if a call panics. -/
theorem walkAll_eq_walkNext (st : List DirFrame) :
    walkAll st =
      match walkNext st with
      | .done => some []
      | .panic => none
      | .yield e st' => (walkAll st').map (e :: ·) := by
  induction st using walkAll.induct <;>
    simp [walkAll, walkNext, *]

/-! ## Lemmas: the association-map machinery -/

section MapLemmas

variable {κ : Type} [DecidableEq κ]

theorem lookupKey_upsertAppend (m : List (κ × List Path)) (k k' : κ) (p : Path) :
    lookupKey k (upsertAppend m k' p) =
      if k = k' then some ((lookupKey k m).getD [] ++ [p])
      else lookupKey k m := by
  induction m with
  | nil => by_cases h : k = k' <;> simp [upsertAppend, lookupKey, h]
  | cons kv rest ih =>
    obtain ⟨k0, v⟩ := kv
    by_cases h1 : k' = k0
    · subst h1
      by_cases h2 : k = k' <;> simp [upsertAppend, lookupKey, h2]
    · by_cases h2 : k = k0
      · subst h2
        have h3 : ¬ k = k' := fun h => h1 h.symm
        simp [upsertAppend, h1, lookupKey, h3]
      · simp [upsertAppend, h1, lookupKey, h2, ih]

theorem keys_upsertAppend (m : List (κ × List Path)) (k : κ) (p : Path) :
    (upsertAppend m k p).map Prod.fst =
      if k ∈ m.map Prod.fst then m.map Prod.fst else m.map Prod.fst ++ [k] := by
  induction m with
  | nil => simp [upsertAppend]
  | cons kv rest ih =>
    obtain ⟨k0, v⟩ := kv
    by_cases h : k = k0
    · subst h; simp [upsertAppend]
    · by_cases h2 : k ∈ rest.map Prod.fst <;>
        simp [upsertAppend, h, ih, h2, Ne.symm h]

theorem nodupKeys_upsertAppend {m : List (κ × List Path)} (k : κ) (p : Path)
    (h : (m.map Prod.fst).Nodup) :
    ((upsertAppend m k p).map Prod.fst).Nodup := by
  rw [keys_upsertAppend]
  by_cases hk : k ∈ m.map Prod.fst
  · simpa [hk] using h
  · rw [if_neg hk]
    refine List.Nodup.append h (List.nodup_singleton k) ?_
    intro a ha hb
    simp only [List.mem_singleton] at hb
    subst hb
    exact hk ha

theorem noNil_upsertAppend {m : List (κ × List Path)} (k : κ) (p : Path)
    (h : ∀ kv ∈ m, kv.2 ≠ []) : ∀ kv ∈ upsertAppend m k p, kv.2 ≠ [] := by
  induction m with
  | nil => simp [upsertAppend]
  | cons kv0 rest ih =>
    obtain ⟨k0, v⟩ := kv0
    by_cases hk : k = k0
    · subst hk
      intro kv hkv
      simp [upsertAppend] at hkv
      rcases hkv with h1 | h1
      · subst h1; simp
      · exact h kv (by simp [h1])
    · intro kv hkv
      simp [upsertAppend, hk] at hkv
      rcases hkv with h1 | h1
      · subst h1; exact h (k0, v) (by simp)
      · exact ih (fun kv h2 => h kv (by simp [h2])) kv h1

theorem mem_iff_lookupKey {m : List (κ × List Path)}
    (hnd : (m.map Prod.fst).Nodup) (k : κ) (v : List Path) :
    (k, v) ∈ m ↔ lookupKey k m = some v := by
  induction m with
  | nil => simp [lookupKey]
  | cons kv rest ih =>
    obtain ⟨k0, v0⟩ := kv
    simp only [List.map_cons, List.nodup_cons] at hnd
    by_cases h : k = k0
    · subst h
      simp only [lookupKey, if_pos rfl, List.mem_cons]
      constructor
      · rintro (h1 | h1)
        · cases h1; rfl
        · exact absurd (List.mem_map_of_mem Prod.fst h1) hnd.1
      · rintro h1; cases h1; exact .inl rfl
    · simp [lookupKey, h, ih hnd.2, Prod.ext_iff, Ne.symm h]

theorem mem_sel (k : κ) (pairs : List (κ × Path)) (p : Path) :
    p ∈ sel k pairs ↔ (k, p) ∈ pairs := by
  simp only [sel, List.mem_filterMap]
  constructor
  · rintro ⟨kp, hmem, heq⟩
    by_cases h : kp.1 = k
    · simp [h] at heq; subst heq
      rcases kp with ⟨k1, p⟩; cases h; exact hmem
    · simp [h] at heq
  · intro h
    exact ⟨(k, p), h, by simp⟩

theorem sel_append (k : κ) (xs ys : List (κ × Path)) :
    sel k (xs ++ ys) = sel k xs ++ sel k ys := by
  simp [sel]

theorem lookupKey_foldl_some (k : κ) (pairs : List (κ × Path)) :
    ∀ (m : List (κ × List Path)) (v : List Path), lookupKey k m = some v →
      lookupKey k (pairs.foldl (fun m kp => upsertAppend m kp.1 kp.2) m) =
        some (v ++ sel k pairs) := by
  induction pairs with
  | nil => intro m v h; simpa [sel] using h
  | cons kp rest ih =>
    intro m v h
    obtain ⟨k0, p⟩ := kp
    by_cases hk : k = k0
    · subst hk
      have h2 : lookupKey k (upsertAppend m k p) = some (v ++ [p]) := by
        rw [lookupKey_upsertAppend]; simp [h]
      rw [List.foldl_cons, ih (upsertAppend m k p) (v ++ [p]) h2]
      simp [sel, List.append_assoc]
    · have h2 : lookupKey k (upsertAppend m k0 p) = some v := by
        rw [lookupKey_upsertAppend]; simp [hk, h]
      rw [List.foldl_cons, ih (upsertAppend m k0 p) v h2]
      simp [sel, (Ne.symm hk : k0 ≠ k)]

theorem lookupKey_foldl_none (k : κ) (pairs : List (κ × Path)) :
    ∀ (m : List (κ × List Path)), lookupKey k m = none →
      lookupKey k (pairs.foldl (fun m kp => upsertAppend m kp.1 kp.2) m) =
        if sel k pairs = [] then none else some (sel k pairs) := by
  induction pairs with
  | nil => intro m h; simpa [sel] using h
  | cons kp rest ih =>
    intro m h
    obtain ⟨k0, p⟩ := kp
    by_cases hk : k = k0
    · subst hk
      have h2 : lookupKey k (upsertAppend m k p) = some [p] := by
        rw [lookupKey_upsertAppend]; simp [h]
      rw [List.foldl_cons, lookupKey_foldl_some k rest (upsertAppend m k p) [p] h2]
      simp [sel]
    · have h2 : lookupKey k (upsertAppend m k0 p) = none := by
        rw [lookupKey_upsertAppend]; simp [hk, h]
      rw [List.foldl_cons, ih (upsertAppend m k0 p) h2]
      simp only [sel, List.filterMap_cons]
      rw [if_neg (show ¬ k0 = k from Ne.symm hk)]

theorem lookupKey_buildMap (k : κ) (pairs : List (κ × Path)) :
    lookupKey k (buildMap pairs) =
      if sel k pairs = [] then none else some (sel k pairs) :=
  lookupKey_foldl_none k pairs [] rfl

theorem nodupKeys_buildMap (pairs : List (κ × Path)) :
    ((buildMap pairs).map Prod.fst).Nodup := by
  suffices h : ∀ (m : List (κ × List Path)), (m.map Prod.fst).Nodup →
      (((pairs.foldl (fun m kp => upsertAppend m kp.1 kp.2) m)).map
        Prod.fst).Nodup by
    exact h [] (by simp)
  induction pairs with
  | nil => intro m hm; simpa using hm
  | cons kp rest ih =>
    intro m hm
    exact ih _ (nodupKeys_upsertAppend kp.1 kp.2 hm)

theorem noNil_buildMap (pairs : List (κ × Path)) :
    ∀ kv ∈ buildMap pairs, kv.2 ≠ [] := by
  suffices h : ∀ (m : List (κ × List Path)), (∀ kv ∈ m, kv.2 ≠ []) →
      ∀ kv ∈ pairs.foldl (fun m kp => upsertAppend m kp.1 kp.2) m,
        kv.2 ≠ [] by
    exact h [] (by simp)
  induction pairs with
  | nil => intro m hm; simpa using hm
  | cons kp rest ih =>
    intro m hm
    exact ih _ (noNil_upsertAppend kp.1 kp.2 hm)

theorem mem_buildMap (k : κ) (v : List Path) (pairs : List (κ × Path)) :
    (k, v) ∈ buildMap pairs ↔ (v = sel k pairs ∧ v ≠ []) := by
  rw [mem_iff_lookupKey (nodupKeys_buildMap pairs), lookupKey_buildMap]
  by_cases h : sel k pairs = [] <;> simp [h, eq_comm]
  rintro rfl; exact h

end MapLemmas

/-! ## Lemmas: pass 1 (`group_by_len`) -/

theorem bucketPush_wrapSS (m : List (Nat × List Path)) (len : Nat) (p : Path) :
    bucketPush (wrapSS m) len p = some (wrapSS (upsertAppend m len p)) := by
  induction m with
  | nil => simp [bucketPush, wrapSS, upsertAppend]
  | cons kv rest ih =>
    obtain ⟨k, v⟩ := kv
    by_cases h : len = k
    · simp [bucketPush, wrapSS, upsertAppend, h]
    · simp only [wrapSS, List.map_cons] at ih ⊢
      simp [bucketPush, upsertAppend, h, ih]

theorem foldlM_group_wrapSS (es : List Entry) :
    ∀ m : List (Nat × List Path),
      es.foldlM group_by_len (wrapSS m) =
        some (wrapSS ((filePairs es).foldl
          (fun m kp => upsertAppend m kp.1 kp.2) m)) := by
  induction es with
  | nil => intro m; simp [filePairs]
  | cons e rest ih =>
    intro m
    cases e with
    | file p l =>
      rw [List.foldlM_cons]
      simp only [group_by_len, bucketPush_wrapSS, Option.bind_eq_bind,
        Option.some_bind]
      rw [ih (upsertAppend m l p)]
      simp [filePairs]
    | error p =>
      rw [List.foldlM_cons]
      simp only [group_by_len, Option.bind_eq_bind, Option.some_bind]
      rw [ih m]
      simp [filePairs]

/-- Pass 1 never aborts when started from the empty map, and produces exactly
the size map of the file entries (every stored value a `Same::SameSize`). -/
theorem pass1_eq (es : List Entry) :
    es.foldlM group_by_len [] = some (wrapSS (sizeGroups es)) := by
  have h := foldlM_group_wrapSS es []
  simpa [wrapSS, sizeGroups, buildMap] using h

/-! ## Lemmas: pass 2 (`same_size_to_checksums`) -/

theorem checksumFold_eq (readF : Path → Option Content)
    (hashF : Content → Hash) (paths : List Path) : ∀ m : ChecksumMap,
    paths.foldl (fun m path =>
      match readF path with
      | some content => upsertAppend m (hashF content) path
      | none => m) m =
    (readPairs readF hashF paths).foldl
      (fun m kp => upsertAppend m kp.1 kp.2) m := by
  induction paths with
  | nil => intro m; simp [readPairs]
  | cons p rest ih =>
    intro m
    cases h : readF p <;>
      simp [readPairs, List.filterMap_cons, h, ih]

theorem s2c_multi (readF : Path → Option Content) (hashF : Content → Hash)
    (size : Nat) (paths : List Path) (h : 1 < paths.length) :
    same_size_to_checksums readF hashF (size, .sameSize paths) =
      (size, .checksums (checksumMap readF hashF paths)) := by
  simp only [same_size_to_checksums, gt_iff_lt, h, if_pos]
  rw [checksumFold_eq]
  rfl

theorem s2c_single (readF : Path → Option Content) (hashF : Content → Hash)
    (size : Nat) (paths : List Path) (h : ¬ 1 < paths.length) :
    same_size_to_checksums readF hashF (size, .sameSize paths) =
      (size, .sameSize paths) := by
  simp [same_size_to_checksums, h]

theorem mem_sel_readPairs (readF : Path → Option Content)
    (hashF : Content → Hash) (paths : List Path) (p : Path) (h : Hash) :
    p ∈ sel h (readPairs readF hashF paths) ↔
      (p ∈ paths ∧ ∃ c, readF p = some c ∧ hashF c = h) := by
  rw [mem_sel]
  simp only [readPairs, List.mem_filterMap, Option.map_eq_some']
  constructor
  · rintro ⟨p', hp', c, hc, heq⟩
    obtain ⟨rfl, rfl⟩ := Prod.mk.inj heq
    exact ⟨hp', c, hc, rfl⟩
  · rintro ⟨hp, c, hc, rfl⟩
    exact ⟨p, hp, c, hc, rfl⟩

/-! ## Lemmas: `summarize` -/

theorem foldl_accountGroup (size : Nat) (l : List (Hash × List Path)) :
    ∀ s : Summary,
      l.foldl (fun s hv => accountGroup size s hv.2) s =
        ⟨s.files + (l.map (fun hv => hv.2.length)).sum,
         s.candidates + (l.map (fun hv => hv.2.length - 1)).sum,
         s.bytes + (l.map (fun hv => size * (hv.2.length - 1))).sum⟩ := by
  induction l with
  | nil => intro s; simp
  | cons hv rest ih =>
    intro s
    rw [List.foldl_cons, ih]
    simp [accountGroup, Nat.add_assoc]

theorem summarize_eq (d : Duplicates) :
    summarize d =
      ⟨((allGroups d).map (fun kv => kv.2.length)).sum,
       ((allGroups d).map (fun kv => kv.2.length - 1)).sum,
       ((allGroups d).map (fun kv => kv.1 * (kv.2.length - 1))).sum⟩ := by
  suffices h : ∀ s : Summary,
      d.foldl (fun s kv =>
        match kv with
        | (size, .sameSize paths) => accountGroup size s paths
        | (size, .checksums map) =>
          map.foldl (fun s hv => accountGroup size s hv.2) s) s =
        ⟨s.files + ((allGroups d).map (fun kv => kv.2.length)).sum,
         s.candidates + ((allGroups d).map (fun kv => kv.2.length - 1)).sum,
         s.bytes +
           ((allGroups d).map (fun kv => kv.1 * (kv.2.length - 1))).sum⟩ by
    have h0 := h ⟨0, 0, 0⟩
    simpa [summarize] using h0
  induction d with
  | nil => intro s; simp [allGroups]
  | cons kv rest ih =>
    intro s
    obtain ⟨size, same⟩ := kv
    cases same with
    | sameSize paths =>
      rw [List.foldl_cons]
      simp only []
      rw [ih]
      simp [accountGroup, allGroups, as_path_iterator, Nat.add_assoc]
    | checksums m =>
      rw [List.foldl_cons]
      simp only []
      rw [foldl_accountGroup, ih]
      simp [allGroups, as_path_iterator, List.map_map, Function.comp,
        Nat.add_assoc]
      exact ⟨rfl, rfl, rfl⟩

/-! ## Lemmas: the path order -/

theorem pathLe_refl (a : Path) : pathLe a a = true := by
  induction a with
  | nil => simp [pathLe]
  | cons x xs ih => simp [pathLe, ih]

theorem pathLe_total (a : Path) : ∀ b : Path,
    pathLe a b = true ∨ pathLe b a = true := by
  induction a with
  | nil => intro b; simp [pathLe]
  | cons x xs ih =>
    intro b
    cases b with
    | nil => simp [pathLe]
    | cons y ys =>
      rcases Nat.lt_trichotomy x y with h | h | h
      · left; simp [pathLe, h]
      · subst h
        rcases ih ys with h2 | h2
        · left; simp [pathLe, h2]
        · right; simp [pathLe, h2]
      · right; simp [pathLe, h]

theorem pathLe_trans : ∀ (a b c : Path),
    pathLe a b = true → pathLe b c = true → pathLe a c = true := by
  intro a
  induction a with
  | nil => intro b c _ _; simp [pathLe]
  | cons x xs ih =>
    intro b c h1 h2
    cases b with
    | nil => simp [pathLe] at h1
    | cons y ys =>
      cases c with
      | nil => simp [pathLe] at h2
      | cons z zs =>
        simp only [pathLe] at h1 h2 ⊢
        rcases Nat.lt_trichotomy x y with hxy | hxy | hxy
        · rcases Nat.lt_trichotomy y z with hyz | hyz | hyz
          · simp [Nat.lt_trans hxy hyz]
          · subst hyz; simp [hxy]
          · rw [if_neg (by omega), if_pos hyz] at h2; cases h2
        · subst hxy
          rcases Nat.lt_trichotomy x z with hyz | hyz | hyz
          · simp [hyz]
          · subst hyz
            rw [if_neg (by omega), if_neg (by omega)] at h1 h2 ⊢
            exact ih ys zs h1 h2
          · rw [if_neg (by omega), if_pos hyz] at h2; cases h2
        · rw [if_neg (by omega), if_pos hxy] at h1; cases h1

theorem pathLe_antisymm : ∀ (a b : Path),
    pathLe a b = true → pathLe b a = true → a = b := by
  intro a
  induction a with
  | nil =>
    intro b h1 h2
    cases b with
    | nil => rfl
    | cons y ys => simp [pathLe] at h2
  | cons x xs ih =>
    intro b h1 h2
    cases b with
    | nil => simp [pathLe] at h1
    | cons y ys =>
      simp only [pathLe] at h1 h2
      rcases Nat.lt_trichotomy x y with hxy | hxy | hxy
      · rw [if_neg (by omega), if_pos hxy] at h2; cases h2
      · subst hxy
        rw [if_neg (by omega), if_neg (by omega)] at h1 h2
        rw [ih ys h1 h2]
      · rw [if_neg (by omega), if_pos hxy] at h1; cases h1

instance : IsTotal (List Path) headLe :=
  ⟨fun a b => pathLe_total (a.headD []) (b.headD [])⟩

instance : IsTrans (List Path) headLe :=
  ⟨fun _ _ _ h1 h2 => pathLe_trans _ _ _ h1 h2⟩

instance : IsTotal (List Path) minLe :=
  ⟨fun a b => pathLe_total (minPathOf a) (minPathOf b)⟩

instance : IsTrans (List Path) minLe :=
  ⟨fun _ _ _ h1 h2 => pathLe_trans _ _ _ h1 h2⟩

/-! ## Remaining auxiliary lemmas -/

theorem mem_checksumMap (readF : Path → Option Content)
    (hashF : Content → Hash) (paths : List Path) (h : Hash) (g : List Path) :
    (h, g) ∈ checksumMap readF hashF paths ↔
      (g = sel h (readPairs readF hashF paths) ∧ g ≠ []) :=
  mem_buildMap h g (readPairs readF hashF paths)

theorem two_le_length_of_mem {α : Type} {l : List α} {p q : α}
    (hp : p ∈ l) (hq : q ∈ l) (hne : p ≠ q) : 2 ≤ l.length := by
  cases l with
  | nil => cases hp
  | cons a t =>
    cases t with
    | nil =>
      simp only [List.mem_singleton] at hp hq
      subst hp; subst hq; exact absurd rfl hne
    | cons b t2 => simp [List.length]

theorem eq_of_perm_of_sorted_local {α : Type} {r : α → α → Prop} :
    ∀ {l₁ l₂ : List α}, l₁.Perm l₂ → l₁.Sorted r → l₂.Sorted r →
      (∀ a ∈ l₁, ∀ b ∈ l₁, r a b → r b a → a = b) → l₁ = l₂ := by
  intro l₁
  induction l₁ with
  | nil =>
    intro l₂ hperm _ _ _
    exact (List.Perm.eq_nil hperm.symm).symm
  | cons a t₁ ih =>
    intro l₂ hperm hs₁ hs₂ hanti
    cases l₂ with
    | nil => cases List.Perm.eq_nil hperm
    | cons b t₂ =>
      by_cases hab : a = b
      · subst hab
        have ht := hperm.cons_inv
        have heq := ih ht hs₁.of_cons hs₂.of_cons
          (fun x hx y hy => hanti x (by simp [hx]) y (by simp [hy]))
        rw [heq]
      · exfalso
        have hain : a ∈ b :: t₂ := hperm.mem_iff.1 (by simp)
        have hbin : b ∈ a :: t₁ := hperm.mem_iff.2 (by simp)
        have hat₂ : a ∈ t₂ := by
          rcases List.mem_cons.1 hain with h | h
          · exact absurd h hab
          · exact h
        have hbt₁ : b ∈ t₁ := by
          rcases List.mem_cons.1 hbin with h | h
          · exact absurd h.symm hab
          · exact h
        have hrab : r a b := (List.sorted_cons.1 hs₁).1 b hbt₁
        have hrba : r b a := (List.sorted_cons.1 hs₂).1 a hat₂
        exact hab (hanti a (by simp) b (by simp [hbt₁]) hrab hrba)

theorem mem_allGroupLists (d : Duplicates) (g : List Path) :
    g ∈ allGroupLists d ↔ ∃ kv ∈ d, g ∈ as_path_iterator kv.2 := by
  simp only [allGroupLists, List.mem_flatMap, List.mem_map]
  constructor
  · rintro ⟨s, ⟨kv, hkv, rfl⟩, hg⟩
    exact ⟨kv, hkv, hg⟩
  · rintro ⟨kv, hkv, hg⟩
    exact ⟨kv.2, ⟨kv, hkv, rfl⟩, hg⟩

/-- Every member-list of the final two-pass model is non-empty. -/
theorem final_groups_ne_nil (es : List Entry) (readF : Path → Option Content)
    (hashF : Content → Hash) :
    ∀ kv ∈ (wrapSS (sizeGroups es)).map (same_size_to_checksums readF hashF),
      ∀ g ∈ as_path_iterator kv.2, g ≠ [] := by
  intro kv hkv g hg
  rw [List.mem_map] at hkv
  obtain ⟨kv0, hkv0, rfl⟩ := hkv
  simp only [wrapSS, List.mem_map] at hkv0
  obtain ⟨⟨k, v⟩, hkv1, rfl⟩ := hkv0
  obtain ⟨hveq, hvne⟩ := (mem_buildMap k v (filePairs es)).1 hkv1
  by_cases hlen : 1 < v.length
  · rw [s2c_multi readF hashF k v hlen] at hg
    simp only [as_path_iterator] at hg
    rw [List.mem_map] at hg
    obtain ⟨⟨h0, g0⟩, hg0, rfl⟩ := hg
    exact ((mem_checksumMap readF hashF v h0 g0).1 hg0).2
  · rw [s2c_single readF hashF k v hlen] at hg
    simp only [as_path_iterator, List.mem_singleton] at hg
    subst hg
    exact hvne

theorem group_lines_isSome (args : Args) (g : List Path) (hg : g ≠ []) :
    (group_lines args g).isSome := by
  cases hargs : args.output
  · cases g with
    | nil => exact absurd rfl hg
    | cons c0 rest => simp [group_lines, hargs]
  · simp only [group_lines, hargs]
    split <;> simp

theorem isSome_map {α β : Type} (f : α → β) (o : Option α) :
    (o.map f).isSome = o.isSome := by cases o <;> rfl

theorem linesFor_isSome (args : Args) (l : List (List Path))
    (h : ∀ g ∈ l, g ≠ []) : (linesFor args l).isSome := by
  induction l with
  | nil => simp [linesFor]
  | cons g rest ih =>
    obtain ⟨ls, hls⟩ := Option.isSome_iff_exists.1
      (group_lines_isSome args g (h g (by simp)))
    obtain ⟨more, hmore⟩ := Option.isSome_iff_exists.1
      (ih (fun g2 hg2 => h g2 (by simp [hg2])))
    simp [linesFor, hls, hmore]

theorem print_lines_isSome (args : Args) (d : Duplicates)
    (h : ∀ kv ∈ d, ∀ g ∈ as_path_iterator kv.2, g ≠ []) :
    (print_lines args d).isSome := by
  rw [print_lines]
  apply linesFor_isSome
  intro g hgmem
  have hg : g ∈ allGroupLists d :=
    (List.perm_insertionSort headLe _).subset hgmem
  obtain ⟨kv, hkv, hgi⟩ := (mem_allGroupLists d g).1 hg
  exact h kv hkv g hgi

theorem foldlM_filter_isFile (es : List Entry) : ∀ m : Duplicates,
    es.foldlM group_by_len m =
      (es.filter Entry.isFile).foldlM group_by_len m := by
  induction es with
  | nil => intro m; rfl
  | cons e rest ih =>
    intro m
    cases e with
    | file p l =>
      simp only [List.filter_cons, Entry.isFile, if_pos, List.foldlM_cons,
        group_by_len]
      cases bucketPush m l p <;> simp [ih]
    | error p =>
      simp only [List.filter_cons, Entry.isFile, Bool.false_eq_true,
        if_neg, List.foldlM_cons, group_by_len, Option.bind_eq_bind,
        Option.some_bind]
      exact ih m

theorem walkAll_isSome_of_goodMeta :
    ∀ st : List DirFrame, (∀ f ∈ st, goodMeta f.2 = true) →
      (walkAll st).isSome := by
  intro st
  induction st using walkAll.induct with
  | case1 => intro _; simp [walkAll]
  | case2 fst rest ih =>
    intro h
    simp only [walkAll]
    exact ih (fun f hf => h f (List.mem_cons_of_mem _ hf))
  | case3 d es rest ih =>
    intro h
    have htop := h _ (List.mem_cons_self _ _)
    simp only [goodMeta] at htop
    simp only [walkAll, isSome_map]
    refine ih (fun f hf => ?_)
    rcases List.mem_cons.1 hf with rfl | hf2
    · exact htop
    · exact h f (List.mem_cons_of_mem _ hf2)
  | case4 d name ftype sub es rest =>
    intro h
    have htop := h _ (List.mem_cons_self _ _)
    simp [goodMeta] at htop
  | case5 d name sub es rest len ih =>
    intro h
    have htop := h _ (List.mem_cons_self _ _)
    have hes : goodMeta es = true := by
      cases sub with
      | none => simpa [goodMeta] using htop
      | some s => simp only [goodMeta, Bool.and_eq_true] at htop; exact htop.2
    simp only [walkAll, isSome_map]
    refine ih (fun f hf => ?_)
    rcases List.mem_cons.1 hf with rfl | hf2
    · exact hes
    · exact h f (List.mem_cons_of_mem _ hf2)
  | case6 d name es rest len neu ih =>
    intro h
    have htop := h _ (List.mem_cons_self _ _)
    simp only [goodMeta, Bool.and_eq_true] at htop
    simp only [walkAll]
    refine ih (fun f hf => ?_)
    rcases List.mem_cons.1 hf with rfl | hf2
    · exact htop.1
    · rcases List.mem_cons.1 hf2 with rfl | hf3
      · exact htop.2
      · exact h f (List.mem_cons_of_mem _ hf3)
  | case7 d name es rest len ih =>
    intro h
    have htop := h _ (List.mem_cons_self _ _)
    simp only [goodMeta] at htop
    simp only [walkAll, isSome_map]
    refine ih (fun f hf => ?_)
    rcases List.mem_cons.1 hf with rfl | hf2
    · exact htop
    · exact h f (List.mem_cons_of_mem _ hf2)
  | case8 d name sub es rest len ih =>
    intro h
    have htop := h _ (List.mem_cons_self _ _)
    have hes : goodMeta es = true := by
      cases sub with
      | none => simpa [goodMeta] using htop
      | some s => simp only [goodMeta, Bool.and_eq_true] at htop; exact htop.2
    simp only [walkAll, isSome_map]
    refine ih (fun f hf => ?_)
    rcases List.mem_cons.1 hf with rfl | hf2
    · exact hes
    · exact h f (List.mem_cons_of_mem _ hf2)
  | case9 d name sub es rest len ih =>
    intro h
    have htop := h _ (List.mem_cons_self _ _)
    have hes : goodMeta es = true := by
      cases sub with
      | none => simpa [goodMeta] using htop
      | some s => simp only [goodMeta, Bool.and_eq_true] at htop; exact htop.2
    simp only [walkAll]
    refine ih (fun f hf => ?_)
    rcases List.mem_cons.1 hf with rfl | hf2
    · exact hes
    · exact h f (List.mem_cons_of_mem _ hf2)

/-! ## The claims -/

/-- C9: in the `mode1` size-grouping fold the accumulator starts from the
empty map and only ever stores `Same::SameSize` values, so the
`unreachable!()` branch of `group_by_len` (modelled by the `none` outcome) is
never executed for any entry sequence: the fold always returns `some`,
namely the size map of the file entries with every value a `SameSize`. -/
theorem C9_unreachable_never_executed (es : List Entry) :
    es.foldlM group_by_len [] = some (wrapSS (sizeGroups es)) :=
  pass1_eq es

/-- C6: the left-fold of size grouping (started from the empty map, as in
`mode1`) yields only non-empty buckets, each bucket being exactly the file
paths of its length in discovery order, and `Entry::Error` entries leave the
accumulator unchanged. -/
theorem C6_size_fold_invariant (es : List Entry) (pass1 : Duplicates)
    (hfold : es.foldlM group_by_len [] = some pass1) :
    (∀ kv ∈ pass1, ∃ ps, kv.2 = Same.sameSize ps ∧ ps ≠ [] ∧
      ps = sel kv.1 (filePairs es)) ∧
    (∀ (m : Duplicates) (p : Path), group_by_len m (.error p) = some m) := by
  constructor
  · rw [pass1_eq] at hfold
    obtain rfl := (Option.some.inj hfold).symm
    intro kv hkv
    simp only [wrapSS, List.mem_map] at hkv
    obtain ⟨⟨k, v⟩, hkv1, rfl⟩ := hkv
    obtain ⟨hveq, hvne⟩ := (mem_buildMap k v (filePairs es)).1 hkv1
    exact ⟨v, rfl, hvne, hveq⟩
  · intro m p; rfl

/-- C6 witness: on the concrete sequence `[File([0],1), Error([5]),
File([1],1)]` the fold yields a single non-empty `SameSize` bucket holding
both paths in discovery order. -/
theorem C6_witness :
    ([Entry.file [0] 1, Entry.error [5],
        Entry.file [1] 1].foldlM group_by_len [] =
      some [(1, Same.sameSize [[0], [1]])]) ∧
    ∃ ps, (Same.sameSize [[0], [1]] : Same) = Same.sameSize ps ∧ ps ≠ [] ∧
      ps = sel 1 (filePairs [Entry.file [0] 1, Entry.error [5],
        Entry.file [1] 1]) := by
  refine ⟨by decide, ?_⟩
  have h := (C6_size_fold_invariant
    [Entry.file [0] 1, Entry.error [5], Entry.file [1] 1]
    [(1, Same.sameSize [[0], [1]])] (by decide)).1
    (1, Same.sameSize [[0], [1]]) (by decide)
  exact h

/-- C2: `summarize` returns exactly the sums the specification prescribes:
over all groups of the model (checksum sub-groups flattened, each tagged with
its size key `s` and member count `n`), `files = Σ n`,
`candidates = Σ (n - 1)` and `bytes = Σ s * (n - 1)`. -/
theorem C2_summarize_sums (d : Duplicates) :
    (summarize d).files = ((allGroups d).map (fun kv => kv.2.length)).sum ∧
    (summarize d).candidates =
      ((allGroups d).map (fun kv => kv.2.length - 1)).sum ∧
    (summarize d).bytes =
      ((allGroups d).map (fun kv => kv.1 * (kv.2.length - 1))).sum := by
  rw [summarize_eq]
  exact ⟨rfl, rfl, rfl⟩

/-- C5: `same_size_to_checksums` passes a one-member bucket through
unchanged; a bucket of two or more members is re-partitioned into the map
keyed by each member's content hash, in which a path appears (in some hash
bucket) exactly when it is a bucket member whose content is readable, and
then under the key given by the hash of its full content — so a member whose
read fails is dropped from the output entirely. -/
theorem C5_checksum_refinement (readF : Path → Option Content)
    (hashF : Content → Hash) :
    (∀ (size : Nat) (p : Path),
      same_size_to_checksums readF hashF (size, .sameSize [p]) =
        (size, .sameSize [p])) ∧
    (∀ (size : Nat) (paths : List Path), 2 ≤ paths.length →
      same_size_to_checksums readF hashF (size, .sameSize paths) =
        (size, .checksums (checksumMap readF hashF paths))) ∧
    (∀ (paths : List Path) (p : Path) (h : Hash),
      (∃ g, (h, g) ∈ checksumMap readF hashF paths ∧ p ∈ g) ↔
        (p ∈ paths ∧ ∃ c, readF p = some c ∧ hashF c = h)) := by
  refine ⟨?_, ?_, ?_⟩
  · intro size p
    exact s2c_single readF hashF size [p] (by simp)
  · intro size paths h
    exact s2c_multi readF hashF size paths h
  · intro paths p h
    constructor
    · rintro ⟨g, hg, hpg⟩
      obtain ⟨rfl, -⟩ := (mem_checksumMap readF hashF paths h g).1 hg
      exact (mem_sel_readPairs readF hashF paths p h).1 hpg
    · intro hyp
      have hpsel := (mem_sel_readPairs readF hashF paths p h).2 hyp
      refine ⟨sel h (readPairs readF hashF paths), ?_, hpsel⟩
      refine (mem_checksumMap readF hashF paths h _).2 ⟨rfl, ?_⟩
      intro h0
      rw [h0] at hpsel
      cases hpsel

/-- C1: two distinct paths of the entry stream (each file listed once, both
contents readable) lie in the same final group of the two-pass pipeline iff
their byte lengths are equal and the hashes of their contents are equal.
Collisions of `hashF` need not be excluded: the statement compares the
hashes themselves. -/
theorem C1_same_final_group_iff (es : List Entry)
    (readF : Path → Option Content) (hashF : Content → Hash)
    (p q : Path) (lp lq : Nat) (cp cq : Content) (pass1 : Duplicates)
    (hnodup : ((filePairs es).map Prod.snd).Nodup)
    (hpq : p ≠ q)
    (hp : (lp, p) ∈ filePairs es) (hq : (lq, q) ∈ filePairs es)
    (hrp : readF p = some cp) (hrq : readF q = some cq)
    (hfold : es.foldlM group_by_len [] = some pass1) :
    inSameGroup (pass1.map (same_size_to_checksums readF hashF)) p q ↔
      (lp = lq ∧ hashF cp = hashF cq) := by
  rw [pass1_eq] at hfold
  obtain rfl := (Option.some.inj hfold).symm
  constructor
  · rintro ⟨kv, hkv, g, hg, hpg, hqg⟩
    rw [List.mem_map] at hkv
    obtain ⟨kv0, hkv0, rfl⟩ := hkv
    simp only [wrapSS, List.mem_map] at hkv0
    obtain ⟨⟨k, v⟩, hkv1, rfl⟩ := hkv0
    obtain ⟨hveq, hvne⟩ := (mem_buildMap k v (filePairs es)).1 hkv1
    by_cases hlen : 1 < v.length
    · rw [s2c_multi readF hashF k v hlen] at hg
      simp only [as_path_iterator] at hg
      rw [List.mem_map] at hg
      obtain ⟨⟨h0, g0⟩, hg0, rfl⟩ := hg
      obtain ⟨rfl, -⟩ := (mem_checksumMap readF hashF v h0 g0).1 hg0
      obtain ⟨hpv, cp', hcp', hhp⟩ :=
        (mem_sel_readPairs readF hashF v p h0).1 hpg
      obtain ⟨hqv, cq', hcq', hhq⟩ :=
        (mem_sel_readPairs readF hashF v q h0).1 hqg
      rw [hrp] at hcp'; cases hcp'
      rw [hrq] at hcq'; cases hcq'
      rw [hveq] at hpv hqv
      rw [mem_sel] at hpv hqv
      have e1 : (lp, p) = (k, p) :=
        List.inj_on_of_nodup_map hnodup hp hpv rfl
      have e2 : (lq, q) = (k, q) :=
        List.inj_on_of_nodup_map hnodup hq hqv rfl
      obtain ⟨rfl, -⟩ := Prod.mk.inj e1
      obtain ⟨rfl, -⟩ := Prod.mk.inj e2
      exact ⟨rfl, by rw [hhp, hhq]⟩
    · rw [s2c_single readF hashF k v hlen] at hg
      simp only [as_path_iterator, List.mem_singleton] at hg
      subst hg
      have := two_le_length_of_mem hpg hqg hpq
      omega
  · rintro ⟨rfl, hh⟩
    have hpv : p ∈ sel lp (filePairs es) := (mem_sel _ _ _).2 hp
    have hqv : q ∈ sel lp (filePairs es) := (mem_sel _ _ _).2 hq
    have hvne : sel lp (filePairs es) ≠ [] := by
      intro h0; rw [h0] at hpv; cases hpv
    have hmem : (lp, sel lp (filePairs es)) ∈ sizeGroups es :=
      (mem_buildMap _ _ _).2 ⟨rfl, hvne⟩
    have hlen : 1 < (sel lp (filePairs es)).length :=
      two_le_length_of_mem hpv hqv hpq
    refine ⟨same_size_to_checksums readF hashF
      (lp, .sameSize (sel lp (filePairs es))), ?_, ?_⟩
    · rw [List.mem_map]
      refine ⟨(lp, .sameSize (sel lp (filePairs es))), ?_, rfl⟩
      simp only [wrapSS, List.mem_map]
      exact ⟨(lp, sel lp (filePairs es)), hmem, rfl⟩
    · rw [s2c_multi readF hashF lp _ hlen]
      have hpsel : p ∈ sel (hashF cp)
          (readPairs readF hashF (sel lp (filePairs es))) :=
        (mem_sel_readPairs _ _ _ _ _).2 ⟨hpv, cp, hrp, rfl⟩
      have hqsel : q ∈ sel (hashF cp)
          (readPairs readF hashF (sel lp (filePairs es))) :=
        (mem_sel_readPairs _ _ _ _ _).2 ⟨hqv, cq, hrq, hh.symm⟩
      refine ⟨sel (hashF cp) (readPairs readF hashF (sel lp (filePairs es))),
        ?_, hpsel, hqsel⟩
      simp only [as_path_iterator]
      rw [List.mem_map]
      refine ⟨(hashF cp,
        sel (hashF cp) (readPairs readF hashF (sel lp (filePairs es)))),
        ?_, rfl⟩
      refine (mem_checksumMap _ _ _ _ _).2 ⟨rfl, ?_⟩
      intro h0
      rw [h0] at hpsel
      cases hpsel

/-- C1 witness: two distinct one-byte files with identical content land in
the same final group. -/
theorem C1_witness :
    ([0] : Path) ≠ [1] ∧
    inSameGroup ([(1, Same.sameSize [[0], [1]])].map
      (same_size_to_checksums (fun _ => some [9]) (fun c => c))) [0] [1] :=
  ⟨by decide,
    (C1_same_final_group_iff [.file [0] 1, .file [1] 1] (fun _ => some [9])
        (fun c => c) [0] [1] 1 1 [9] [9] [(1, Same.sameSize [[0], [1]])]
        (by decide) (by decide) (by decide) (by decide) rfl rfl
        (by decide)).mpr ⟨rfl, rfl⟩⟩

/-- C3 counterexample: `print_result` sorts the flattened group list by each
member-list's FIRST path (`(**a)[0]`), not by its lexicographically smallest
path.  On the model with groups `[[2],[0]]` (discovery head `[2]`, smallest
member `[0]`) and `[[1]]`, the code's order differs from the spec-modelled
smallest-path order. -/
theorem C3_counterexample :
    print_order [(1, Same.sameSize [[2], [0]]), (2, Same.sameSize [[1]])] ≠
      spec_print_order
        [(1, Same.sameSize [[2], [0]]), (2, Same.sameSize [[1]])] := by
  decide

/-- C3 (amended): presentation flattens all groups into one list of
member-lists and sorts it by the first (discovery-order head) path of each
member-list; the output is sorted under that comparator, is a permutation of
the flattened groups, and — when the heads are pairwise distinct, as for any
model whose groups hold distinct paths — it is identical for any two models
with permuted flattened group lists, i.e. independent of the hash-map
iteration order. -/
theorem C3_sorted_by_head (d d' : Duplicates)
    (hperm : (allGroupLists d).Perm (allGroupLists d'))
    (hheads : ((allGroupLists d).map (fun g => g.headD [])).Nodup) :
    (print_order d).Sorted headLe ∧
    (print_order d).Perm (allGroupLists d) ∧
    print_order d = print_order d' := by
  have hs : ∀ dd : Duplicates, (print_order dd).Sorted headLe := fun dd =>
    List.sorted_insertionSort headLe (allGroupLists dd)
  refine ⟨hs d, List.perm_insertionSort headLe _, ?_⟩
  apply eq_of_perm_of_sorted_local
    ((List.perm_insertionSort headLe _).trans
      (hperm.trans (List.perm_insertionSort headLe _).symm))
    (hs d) (hs d')
  intro a ha b hb hab hba
  have ha2 : a ∈ allGroupLists d :=
    (List.perm_insertionSort headLe _).subset ha
  have hb2 : b ∈ allGroupLists d :=
    (List.perm_insertionSort headLe _).subset hb
  have hhd : a.headD [] = b.headD [] := pathLe_antisymm _ _ hab hba
  exact List.inj_on_of_nodup_map hheads ha2 hb2 hhd

/-- C3 witness: two models that list the same two groups in opposite
hash-map order print identically. -/
theorem C3_witness :
    ((allGroupLists [(1, Same.sameSize [[0]]), (2, Same.sameSize [[1]])]).Perm
      (allGroupLists [(2, Same.sameSize [[1]]), (1, Same.sameSize [[0]])])) ∧
    print_order [(1, Same.sameSize [[0]]), (2, Same.sameSize [[1]])] =
      print_order [(2, Same.sameSize [[1]]), (1, Same.sameSize [[0]])] :=
  ⟨by decide, (C3_sorted_by_head _ _ (by decide) (by decide)).2.2⟩

theorem group_lines_max_depth (args : Args) (n : Nat) (g : List Path) :
    group_lines { args with max_depth := n } g = group_lines args g := by
  cases args; rfl

theorem linesFor_max_depth (args : Args) (n : Nat) (l : List (List Path)) :
    linesFor { args with max_depth := n } l = linesFor args l := by
  induction l with
  | nil => rfl
  | cons g rest ih => simp [linesFor, group_lines_max_depth, ih]

theorem print_lines_max_depth (args : Args) (n : Nat) (d : Duplicates) :
    print_lines { args with max_depth := n } d = print_lines args d := by
  rw [print_lines, print_lines, linesFor_max_depth]

/-- C7: the core ignores the `max_depth` flag entirely: two runs that differ
only in its value produce identical outcomes — the same result model, the
same summary, the same printed lines. -/
theorem C7_max_depth_ignored (args : Args) (n : Nat)
    (readF : Path → Option Content) (hashF : Content → Hash)
    (root : Option (List RawEntry)) :
    mode1 { args with max_depth := n } readF hashF root =
      mode1 args readF hashF root := by
  unfold mode1
  simp only [print_lines_max_depth]

/-- C10: every member-list stored in the final model (a `SameSize` bucket or
a vector inside a `ChecksumMap`) is non-empty — so the `u64` subtraction
`files - 1` in `summarize` never underflows — the summary satisfies
`candidates ≤ files` — so `files - candidates` in `Summary::print` never
underflows — and the `candidates[0]` indexing of the printing loop never
fails (`print_lines` succeeds for either output mode). -/
theorem C10_no_underflow_no_index_panic (es : List Entry)
    (readF : Path → Option Content) (hashF : Content → Hash)
    (pass1 : Duplicates)
    (hfold : es.foldlM group_by_len [] = some pass1) :
    (∀ kv ∈ pass1.map (same_size_to_checksums readF hashF),
      ∀ g ∈ as_path_iterator kv.2, g ≠ []) ∧
    (summarize (pass1.map (same_size_to_checksums readF hashF))).candidates ≤
      (summarize (pass1.map (same_size_to_checksums readF hashF))).files ∧
    (∀ args : Args,
      (print_lines args
        (pass1.map (same_size_to_checksums readF hashF))).isSome) := by
  rw [pass1_eq] at hfold
  obtain rfl := (Option.some.inj hfold).symm
  have hne := final_groups_ne_nil es readF hashF
  refine ⟨hne, ?_, fun args => print_lines_isSome args _ hne⟩
  rw [summarize_eq]
  apply List.sum_le_sum
  intro kv _
  omega

/-- C10 witness: a singleton model built by the fold satisfies the
no-underflow inequality. -/
theorem C10_witness :
    ([Entry.file [0] 1].foldlM group_by_len [] =
      some [(1, Same.sameSize [[0]])]) ∧
    (summarize ([(1, Same.sameSize [[0]])].map
      (same_size_to_checksums (fun _ => some []) (fun c => c)))).candidates ≤
    (summarize ([(1, Same.sameSize [[0]])].map
      (same_size_to_checksums (fun _ => some []) (fun c => c)))).files :=
  ⟨by decide,
    (C10_no_underflow_no_index_panic [Entry.file [0] 1] (fun _ => some [])
      (fun c => c) [(1, Same.sameSize [[0]])] (by decide)).2.1⟩

/-- C4 counterexample: an I/O failure other than the failure to open the
root directory DOES terminate the run: a directory entry whose `metadata()`
call fails aborts the process through the `unwrap()` in `Walker::next`, even
though the root listing was opened successfully. -/
theorem C4_counterexample :
    mode1 ⟨.human, true, false, 1⟩ (fun _ => some []) (fun c => c)
      (some [.ok 0 none (some .file) none]) = .panicked := by
  simp [mode1, walkAll]

/-- C4 (amended): the root-open failure returns the fatal error, and a
failed `metadata()` call also aborts the run (via `unwrap()`); every OTHER
failure — unreadable subdirectory, unreadable directory entry, unreadable
file type, failed file read — is absorbed: on any tree whose metadata calls
all succeed the run completes normally whatever `readF` fails, and the
grouping fold gives `Error` entries no effect, so absorbed errors leave no
trace in the model or the `Summary`. -/
theorem C4_error_propagation (args : Args) (readF : Path → Option Content)
    (hashF : Content → Hash) :
    (mode1 args readF hashF none = .rootError) ∧
    (∀ entries : List RawEntry, goodMeta entries = true →
      ∃ m s lines, mode1 args readF hashF (some entries) = .ok m s lines) ∧
    (∀ (es : List Entry) (m : Duplicates),
      es.foldlM group_by_len m =
        (es.filter Entry.isFile).foldlM group_by_len m) := by
  refine ⟨rfl, ?_, fun es m => foldlM_filter_isFile es m⟩
  intro entries hgood
  have hw : (walkAll [([], entries)]).isSome :=
    walkAll_isSome_of_goodMeta [([], entries)] (by
      intro f hf
      simp only [List.mem_singleton] at hf
      subst hf
      exact hgood)
  obtain ⟨es, hes⟩ := Option.isSome_iff_exists.1 hw
  have hp1 := pass1_eq es
  obtain ⟨lines, hlines⟩ := Option.isSome_iff_exists.1
    (print_lines_isSome args ((wrapSS (sizeGroups es)).map
      (same_size_to_checksums readF hashF))
      (final_groups_ne_nil es readF hashF))
  refine ⟨(wrapSS (sizeGroups es)).map (same_size_to_checksums readF hashF),
    summarize ((wrapSS (sizeGroups es)).map
      (same_size_to_checksums readF hashF)), lines, ?_⟩
  simp only [mode1, hes, hp1, hlines]

/-- C4 witness: a tree with an unreadable cursor entry, an unreadable
subdirectory and a readable file (all metadata fine) completes normally. -/
theorem C4_witness :
    goodMeta [RawEntry.err, .ok 0 (some 0) (some .dir) none,
      .ok 1 (some 1) (some .file) none] = true ∧
    ∃ m s lines,
      mode1 ⟨.human, true, false, 1⟩ (fun _ => some []) (fun c => c)
        (some [RawEntry.err, .ok 0 (some 0) (some .dir) none,
          .ok 1 (some 1) (some .file) none]) = .ok m s lines :=
  ⟨by simp [goodMeta],
    (C4_error_propagation ⟨.human, true, false, 1⟩ (fun _ => some [])
      (fun c => c)).2.1 _ (by simp [goodMeta])⟩

theorem nextCalls_chainFs : ∀ (n : Nat) (d : Path) (rest : List DirFrame),
    nextCalls ((d, chainFs n) :: rest) = n + 1 := by
  intro n
  induction n with
  | zero => intro d rest; simp [chainFs, nextCalls]
  | succ k ih => intro d rest; simp [chainFs, nextCalls, ih]; omega

/-- C8 counterexample: producing the next entry does NOT consume bounded
call depth independently of the tree's depth: `Walker::next` calls itself
(`self.next()`), and over the chain trees of growing depth no bound caps the
number of nested activations the first `next()` performs. -/
theorem C8_counterexample :
    ¬ ∃ B : Nat, ∀ n : Nat, nextCalls [([], chainFs n)] ≤ B := by
  rintro ⟨B, hB⟩
  have h := hB (B + 1)
  rw [nextCalls_chainFs (B + 1) [] []] at h
  omega

/-- C8 (amended): the walker does replace per-directory recursion by an
explicit stack of listing cursors, but `Walker::next` itself is natively
self-recursive (after a pop, a descend, or a skip): on a chain of `n` nested
directories the first `next()` call performs exactly `n + 1` nested
activations, so its call depth grows linearly with the tree depth. -/
theorem C8_next_recursion_depth (n : Nat) :
    nextCalls [([], chainFs n)] = n + 1 :=
  nextCalls_chainFs n [] []

/-- C5 witness: a two-member bucket of readable files is refined into the
checksum map, and a member appears under the hash of its content. -/
theorem C5_witness :
    (2 ≤ ([[0], [1]] : List Path).length) ∧
    same_size_to_checksums (fun _ => some [9]) (fun c => c)
        (5, .sameSize [[0], [1]]) =
      (5, .checksums (checksumMap (fun _ => some [9]) (fun c => c)
        [[0], [1]])) :=
  ⟨by decide,
    (C5_checksum_refinement (fun _ => some [9]) (fun c => c)).2.1
      5 [[0], [1]] (by decide)⟩

end Findup
